import Mathlib

/-
  Verification development for the T-Deck Pro plain-text reader firmware
  (src/main.cpp).  The pagination/indexing core is embedded shallowly:

  * Byte streams are modelled as `List Int`, each element being the value of
    the C `char` read from the file (signed `char`, so bytes at and above 128
    appear negative; every comparison in the source is on this signed value).
  * The raw-character page scanner shared by `preIndexFiles` (cold build,
    limited to `PREINDEX_PAGES = 100` pages) and the continuation loop in
    `openBook` is `scanChar`; `file.position()` is tracked by the `pos` field
    (number of bytes consumed so far).  The `openBook` loop keeps no page
    counter; it reuses `scanChar` and simply ignores the `pageCount` field.
  * The on-disk index record of `saveIndexToSD` / `loadIndexFromSD` /
    `saveReadingPosition` is a `List Nat` of bytes; little-endian 32-bit
    fields are encoded by `le4` and decoded by `read4`.  A short `File.read`
    leaves the zero-initialised destination bytes unchanged, which `read4`'s
    `getD _ 0` reproduces.  The 32-bit `long`/`int`/`unsigned long` fields
    are modelled by their bit patterns as `Nat`.
  * `findLineBreak` is embedded with the still-unscanned suffix of the buffer
    as the structural recursion argument (invariant `rest = buffer.drop i`);
    `lastBreakPoint` uses `Option Nat` for the source's `-1` sentinel (the
    sentinel never passes the `lastBreakPoint > lineStart` test, and a stored
    break point is a non-negative index, so the guard is unchanged).
  * Layout settings `linesPerPage` / `charsPerLine` (the global `settings`
    struct, initialised to 25 and 38 and never written) are passed as
    parameters `lpp` / `cpl`.
-/

-- ===========================================================================
-- Data model: FileCache (catalog entry) and ReaderState (reader session)
-- ===========================================================================

/-- Mirrors `struct FileCache` of main.cpp (the `filename` string identity is
kept outside the model; `lastReadPage` is a C `int` holding non-negative page
numbers, modelled as `Nat`). -/
structure FileCache where
  pagePositions : List Nat
  fileSize : Nat
  fullyIndexed : Bool
  lastReadPage : Nat
deriving DecidableEq

/-- Mirrors the pagination-relevant fields of `struct ReaderState`. -/
structure ReaderState where
  currentPage : Nat
  totalPages : Nat
  pagePositions : List Nat
  fileOpen : Bool
deriving DecidableEq

-- ===========================================================================
-- The raw-character page scanner (indexing loops of preIndexFiles / openBook)
-- ===========================================================================

/-- State of the indexing loops: `lineCount`, `charCount`, `pageCount` are the
local counters of `preIndexFiles` (main.cpp:639-641), `offsets` is the
`pagePositions` vector being built, `pos` is `file.position()`. -/
structure ScanState where
  lineCount : Nat
  charCount : Nat
  pageCount : Nat
  offsets : List Nat
  pos : Nat
deriving DecidableEq

/-- One iteration of the `while (file.available())` body shared verbatim by
`preIndexFiles` (main.cpp:644-670) and `openBook` (main.cpp:867-899):
a newline bumps the line counter, any `c >= 32 || c == '\t'` bumps the column
counter with a synthetic line break at `cpl`; when the line counter reaches
`lpp` the position after the current byte is recorded as the next page start.
`openBook`'s copy has no `pageCount` variable; it ignores that field. -/
def scanChar (lpp cpl : Nat) (s : ScanState) (c : Int) : ScanState :=
  if c = 10 then
    if lpp ≤ s.lineCount + 1 then
      ⟨0, 0, s.pageCount + 1, s.offsets ++ [s.pos + 1], s.pos + 1⟩
    else
      ⟨s.lineCount + 1, 0, s.pageCount, s.offsets, s.pos + 1⟩
  else if 32 ≤ c ∨ c = 9 then
    if cpl ≤ s.charCount + 1 then
      if lpp ≤ s.lineCount + 1 then
        ⟨0, 0, s.pageCount + 1, s.offsets ++ [s.pos + 1], s.pos + 1⟩
      else
        ⟨s.lineCount + 1, 0, s.pageCount, s.offsets, s.pos + 1⟩
    else
      ⟨s.lineCount, s.charCount + 1, s.pageCount, s.offsets, s.pos + 1⟩
  else
    ⟨s.lineCount, s.charCount, s.pageCount, s.offsets, s.pos + 1⟩

/-- The cold pre-indexing loop `while (file.available() && pageCount <
PREINDEX_PAGES)` of `preIndexFiles` (main.cpp:644), with `PREINDEX_PAGES =
100`. -/
def preIndexLoop (lpp cpl : Nat) : ScanState → List Int → ScanState
  | s, [] => s
  | s, c :: rest =>
    if s.pageCount < 100 then preIndexLoop lpp cpl (scanChar lpp cpl s c) rest
    else s

/-- Scanner state at the start of a cold build: `pagePositions = [0]` (first
page always at 0, main.cpp:637), `pageCount = 1`, counters zero, stream at
byte 0. -/
def initScanState : ScanState := ⟨0, 0, 1, [0], 0⟩

/-- The catalog entry built for one file by the index-building branch of
`preIndexFiles` (main.cpp:622-681): cold limited scan from byte 0;
`fullyIndexed` is set iff the stream was exhausted (`!file.available()`);
`lastReadPage = 0` for freshly indexed files. -/
def preIndexFile (lpp cpl : Nat) (content : List Int) : FileCache :=
  let s := preIndexLoop lpp cpl initScanState content
  ⟨s.offsets, content.length, s.pos == content.length, 0⟩

/-- A cold scan of the entire file from byte 0 with no page limit: the
indexing loop of `openBook` when no cache entry exists (main.cpp:855-899),
and the reference "true total page count" scan. -/
def fullScan (lpp cpl : Nat) (content : List Int) : ScanState :=
  content.foldl (scanChar lpp cpl) initScanState

-- ===========================================================================
-- Index Store binary format (saveIndexToSD / loadIndexFromSD /
-- saveReadingPosition)
-- ===========================================================================

/-- Little-endian encoding of the low 32 bits of `n`, as written by
`idxFile.write((uint8_t*)&x, 4)` for a 32-bit field. -/
def le4 (n : Nat) : List Nat :=
  [n % 256, n / 256 % 256, n / 65536 % 256, n / 16777216 % 256]

/-- Little-endian decoding of 4 bytes at position `p`, as read by
`idxFile.read((uint8_t*)&x, 4)` into a zero-initialised 32-bit variable: a
short read leaves the missing high bytes at 0, which `getD _ 0` models. -/
def read4 (bytes : List Nat) (p : Nat) : Nat :=
  bytes.getD p 0 + 256 * bytes.getD (p + 1) 0 + 65536 * bytes.getD (p + 2) 0 +
    16777216 * bytes.getD (p + 3) 0

/-- The bytes of the version-2 index record written by `saveIndexToSD`
(main.cpp:524-562): version byte 2, fileSize, pageCount, completeness flag,
lastReadPage, then the page-start offsets. -/
def saveIndexToSD (pagePositions : List Nat) (fileSize : Nat)
    (fullyIndexed : Bool) (lastReadPage : Nat) : List Nat :=
  [2] ++ le4 fileSize ++ le4 pagePositions.length ++
    [if fullyIndexed then 1 else 0] ++ le4 lastReadPage ++
    pagePositions.flatMap le4

/-- The stored fileSize field of an index record, read the way
`loadIndexFromSD` reads it: version byte 2 puts it at bytes 1-4, any other
leading byte makes the loader seek back and use the legacy layout with the
fileSize at bytes 0-3 (main.cpp:471-487). -/
def storedFileSize (idx : List Nat) : Nat :=
  if idx.getD 0 0 = 2 then read4 idx 1 else read4 idx 0

/-- Result of `loadIndexFromSD`: the returned Bool, the filled cache entry,
and whether `SD.remove` was called on the record. -/
structure LoadResult where
  ok : Bool
  cache : FileCache
  removed : Bool
deriving DecidableEq

/-- `loadIndexFromSD` (main.cpp:455-521) on an existing record `idx`;
`currentFileSize` is `none` when the text file itself cannot be opened.
After the version-dependent header parse the stored fileSize is compared to
the live size; a mismatch deletes the record and reports no index.  On
success `pageCount` offsets are read with no validation against the bytes
actually present (missing bytes read as 0). -/
def loadIndexFromSD (idx : List Nat) (currentFileSize : Option Nat) :
    LoadResult :=
  let pageCount := if idx.getD 0 0 = 2 then read4 idx 5 else read4 idx 4
  let fullyIndexed := if idx.getD 0 0 = 2 then idx.getD 9 0 else idx.getD 8 0
  let lastReadPage := if idx.getD 0 0 = 2 then read4 idx 10 else 0
  let dataStart := if idx.getD 0 0 = 2 then 14 else 9
  match currentFileSize with
  | none => ⟨false, ⟨[], 0, false, 0⟩, false⟩
  | some sz =>
    if storedFileSize idx = sz then
      ⟨true,
        ⟨(List.range pageCount).map (fun j => read4 idx (dataStart + 4 * j)),
          storedFileSize idx, fullyIndexed == 1, lastReadPage⟩,
        false⟩
    else ⟨false, ⟨[], 0, false, 0⟩, true⟩

/-- `saveReadingPosition` (main.cpp:565-602) on an existing record `idx`:
for a version-2 record it seeks past the `1+4+4+1` byte header prefix and
overwrites only the 4-byte resume-cursor field in place; for any other
version it falls back to a full `saveIndexToSD` rewrite from the in-memory
catalog entry (`none` when the catalog holds no entry for the file, in which
case the function fails and writes nothing). -/
def saveReadingPosition (idx : List Nat) (page : Nat)
    (cacheEntry : Option FileCache) : Option (List Nat) :=
  if idx.getD 0 0 = 2 then
    some (idx.take 10 ++ le4 page ++ idx.drop 14)
  else
    match cacheEntry with
    | some fc =>
      some (saveIndexToSD fc.pagePositions fc.fileSize fc.fullyIndexed page)
    | none => none

-- ===========================================================================
-- Reader session: openBook / closeBook / nextPage
-- ===========================================================================

/-- Result of `openBook`: the reader session state and the bytes persisted by
the `saveIndexToSD` call at main.cpp:905 (none on the fully-pre-indexed fast
path, which returns before saving). -/
structure OpenResult where
  reader : ReaderState
  saved : Option (List Nat)
deriving DecidableEq

/-- `openBook` (main.cpp:778-910) for a file that opens successfully and has
a catalog entry `cache`: the cached positions are copied, the resume position
is restored when `0 < lastReadPage < cache.pagePositions.size()`
(main.cpp:834), and, unless the entry is fully indexed, indexing continues
from the last cached offset (`seek` + the same raw-character scan) to stream
exhaustion, after which the complete index is persisted with the current
page as resume cursor. -/
def openBook (lpp cpl : Nat) (cache : FileCache) (content : List Int) :
    OpenResult :=
  let cp0 := if 0 < cache.lastReadPage ∧
      cache.lastReadPage < cache.pagePositions.length
    then cache.lastReadPage else 0
  if cache.fullyIndexed then
    ⟨⟨cp0, cache.pagePositions.length, cache.pagePositions, true⟩, none⟩
  else
    let startPos := cache.pagePositions.getLastD 0
    let s := (content.drop startPos).foldl (scanChar lpp cpl)
      ⟨0, 0, 0, cache.pagePositions, startPos⟩
    ⟨⟨cp0, s.offsets.length, s.offsets, true⟩,
      some (saveIndexToSD s.offsets content.length true cp0)⟩

/-- `closeBook` (main.cpp:1170-1190): when a book is open, the current page
is persisted as the catalog entry's resume cursor and the session is
cleared. -/
def closeBook (cache : FileCache) (r : ReaderState) :
    FileCache × ReaderState :=
  if r.fileOpen then
    (⟨cache.pagePositions, cache.fileSize, cache.fullyIndexed, r.currentPage⟩,
      ⟨r.currentPage, r.totalPages, [], false⟩)
  else (cache, r)

/-- `nextPage` (main.cpp:1154-1160). -/
def nextPage (r : ReaderState) : ReaderState :=
  if r.fileOpen ∧ r.currentPage < r.totalPages - 1 then
    ⟨r.currentPage + 1, r.totalPages, r.pagePositions, r.fileOpen⟩
  else r

-- ===========================================================================
-- findLineBreak (main.cpp:917-1004)
-- ===========================================================================

/-- Mirrors `struct WrapResult`. -/
structure WrapResult where
  lineEnd : Nat
  nextStart : Nat
deriving DecidableEq

/-- The `while` loop at main.cpp:985-988 skipping spaces and tabs after a
soft break, on the suffix of the buffer from the current position. -/
def skipWSAux : List Int → Nat → Nat
  | [], n => n
  | c :: rest, n => if c = 32 ∨ c = 9 then skipWSAux rest (n + 1) else n

/-- Position reached from `n` after skipping the run of spaces/tabs. -/
def skipWS (buffer : List Int) (n : Nat) : Nat :=
  skipWSAux (buffer.drop n) n

/-- The break-point tracking at main.cpp:959-975: a space or tab right after
a word records the position of the space, a hyphen inside a word records the
position after the hyphen; the source's `-1` sentinel is `none`.  (The
`c == '\t'` test is kept verbatim although it sits under `c >= 32` and can
never fire for the tab character 9.) -/
def updateLbp (i : Nat) (lbp : Option Nat) (inWord : Bool) (c : Int) :
    Option Nat :=
  if c = 32 ∨ c = 9 then (if inWord then some i else lbp)
  else if c = 45 then (if inWord then some (i + 1) else lbp)
  else lbp

/-- The `inWord` update of the same passage. -/
def updateWord (inWord : Bool) (c : Int) : Bool :=
  if c = 32 ∨ c = 9 then false else if c = 45 then inWord else true

/-- The scan loop of `findLineBreak` (main.cpp:931-998).  `rest` is the
still-unscanned suffix (`rest = buffer.drop i`, `i` the loop index): a
newline or carriage return ends the line at once (swallowing a directly
following companion of the other kind); a printable character (signed value
at least 32) is counted, and when the count reaches `maxChars` the line is
cut at the last recorded break point if one lies beyond `lineStart`
(skipping following whitespace), else cut hard at the current position. -/
def flbLoop (buffer : List Int) (lineStart maxChars : Nat) :
    List Int → Nat → Nat → Option Nat → Bool → WrapResult
  | [], _, _, _, _ => ⟨buffer.length, buffer.length⟩
  | c :: rest, i, charCount, lbp, inWord =>
    if c = 10 then
      ⟨i, if rest.head? = some 13 then i + 2 else i + 1⟩
    else if c = 13 then
      ⟨i, if rest.head? = some 10 then i + 2 else i + 1⟩
    else if 32 ≤ c then
      if maxChars ≤ charCount + 1 then
        match updateLbp i lbp inWord c with
        | some bp => if lineStart < bp then ⟨bp, skipWS buffer bp⟩ else ⟨i, i⟩
        | none => ⟨i, i⟩
      else
        flbLoop buffer lineStart maxChars rest (i + 1) (charCount + 1)
          (updateLbp i lbp inWord c) (updateWord inWord c)
    else flbLoop buffer lineStart maxChars rest (i + 1) charCount lbp inWord

/-- `findLineBreak(buffer, bufLen, lineStart, maxChars)` with the buffer
modelled as the list of its `bufLen` signed char values (main.cpp:917-1004).
An out-of-range `lineStart` returns the initialised result at once. -/
def findLineBreak (buffer : List Int) (lineStart maxChars : Nat) :
    WrapResult :=
  if buffer.length ≤ lineStart then ⟨lineStart, lineStart⟩
  else flbLoop buffer lineStart maxChars (buffer.drop lineStart) lineStart 0
    none false

-- ===========================================================================
-- Scanner lemmas shared by several claims
-- ===========================================================================

/-- The fields of a `ScanState` that the scan conditions and the recorded
offsets depend on: everything except `pageCount` (which `openBook`'s copy of
the loop does not have). -/
def coreOf (s : ScanState) : Nat × Nat × List Nat × Nat :=
  (s.lineCount, s.charCount, s.offsets, s.pos)

lemma scanChar_coreOf (lpp cpl : Nat) (c : Int) {s t : ScanState}
    (h : coreOf s = coreOf t) :
    coreOf (scanChar lpp cpl s c) = coreOf (scanChar lpp cpl t c) := by
  cases s; cases t
  simp only [coreOf, Prod.mk.injEq] at h
  obtain ⟨h1, h2, h3, h4⟩ := h
  subst h1; subst h2; subst h3; subst h4
  simp only [scanChar]
  split_ifs <;> rfl

lemma foldl_scanChar_coreOf (lpp cpl : Nat) (l : List Int) :
    ∀ {s t : ScanState}, coreOf s = coreOf t →
      coreOf (l.foldl (scanChar lpp cpl) s) =
        coreOf (l.foldl (scanChar lpp cpl) t) := by
  induction l with
  | nil => intro s t h; simpa using h
  | cons c rest ih =>
    intro s t h
    simpa using ih (scanChar_coreOf lpp cpl c h)

lemma coreOf_offsets {s t : ScanState} (h : coreOf s = coreOf t) :
    s.offsets = t.offsets := by
  simp only [coreOf, Prod.mk.injEq] at h
  exact h.2.2.1

lemma scanChar_pos (lpp cpl : Nat) (s : ScanState) (c : Int) :
    (scanChar lpp cpl s c).pos = s.pos + 1 := by
  simp only [scanChar]
  split_ifs <;> rfl

lemma foldl_scanChar_pos (lpp cpl : Nat) :
    ∀ (l : List Int) (s : ScanState),
      (l.foldl (scanChar lpp cpl) s).pos = s.pos + l.length := by
  intro l
  induction l with
  | nil => intro s; simp
  | cons c rest ih =>
    intro s
    have := ih (scanChar lpp cpl s c)
    simp only [List.foldl_cons, this, scanChar_pos, List.length_cons]
    omega

/-- When the cold pre-index loop has stopped because the page limit was
reached, the last processed character recorded a page boundary, so the line
and column counters are back at zero and the last recorded offset is the
current stream position. -/
def pageStopInv (s : ScanState) : Prop :=
  100 ≤ s.pageCount →
    s.lineCount = 0 ∧ s.charCount = 0 ∧ s.offsets.getLast? = some s.pos

lemma scanChar_pageStopInv {lpp cpl : Nat} {s : ScanState} {c : Int}
    (h : s.pageCount < 100) : pageStopInv (scanChar lpp cpl s c) := by
  simp only [scanChar]
  split_ifs <;> intro h100 <;> simp at h100 <;>
    first
      | exact ⟨rfl, rfl, List.getLast?_concat _⟩
      | exact absurd h100 (by omega)

lemma preIndexLoop_pageStopInv (lpp cpl : Nat) :
    ∀ (l : List Int) (s : ScanState), pageStopInv s →
      pageStopInv (preIndexLoop lpp cpl s l) := by
  intro l
  induction l with
  | nil => intro s h; simpa [preIndexLoop] using h
  | cons c rest ih =>
    intro s h
    by_cases hpc : s.pageCount < 100
    · simpa [preIndexLoop, hpc] using ih _ (scanChar_pageStopInv hpc)
    · simpa [preIndexLoop, hpc] using h

/-- The limited cold loop computes the unlimited fold over the prefix it
consumed, and stops short of the whole list only when the page limit was
reached. -/
lemma preIndexLoop_spec (lpp cpl : Nat) :
    ∀ (l : List Int) (s : ScanState),
      ∃ n, n ≤ l.length ∧
        preIndexLoop lpp cpl s l = (l.take n).foldl (scanChar lpp cpl) s ∧
        (n < l.length → 100 ≤ (preIndexLoop lpp cpl s l).pageCount) := by
  intro l
  induction l with
  | nil =>
    intro s
    exact ⟨0, by simp, by simp [preIndexLoop], by simp⟩
  | cons c rest ih =>
    intro s
    by_cases hpc : s.pageCount < 100
    · obtain ⟨n, hn, heq, hstop⟩ := ih (scanChar lpp cpl s c)
      refine ⟨n + 1, by simpa using hn, ?_, ?_⟩
      · simpa [preIndexLoop, hpc] using heq
      · intro hlt
        have : n < rest.length := by simpa using hlt
        simpa [preIndexLoop, hpc] using hstop this
    · refine ⟨0, by simp, by simp [preIndexLoop, hpc], ?_⟩
      intro _
      simp only [preIndexLoop, if_neg hpc]
      omega

/-- Core correctness of the warm continuation: starting the raw-character
scan at the last cached offset of a partial cold index and running to stream
exhaustion reaches the same core state (counters, offsets, position) as a
cold scan of the whole file from byte 0. -/
lemma warm_core (lpp cpl : Nat) (content : List Int)
    (h : (preIndexFile lpp cpl content).fullyIndexed = false) :
    coreOf ((content.drop
        ((preIndexFile lpp cpl content).pagePositions.getLastD 0)).foldl
      (scanChar lpp cpl)
      ⟨0, 0, 0, (preIndexFile lpp cpl content).pagePositions,
        (preIndexFile lpp cpl content).pagePositions.getLastD 0⟩) =
    coreOf (fullScan lpp cpl content) := by
  obtain ⟨n, hn, heq, hstop⟩ := preIndexLoop_spec lpp cpl content initScanState
  have hpos : (preIndexLoop lpp cpl initScanState content).pos = n := by
    rw [heq, foldl_scanChar_pos]
    simp [initScanState]
    omega
  have hne : (preIndexLoop lpp cpl initScanState content).pos ≠
      content.length := by
    simpa [preIndexFile, beq_eq_false_iff_ne] using h
  have hlt : n < content.length := lt_of_le_of_ne hn (hpos ▸ hne)
  have h100 : 100 ≤ (preIndexLoop lpp cpl initScanState content).pageCount :=
    hstop hlt
  have hinv : pageStopInv (preIndexLoop lpp cpl initScanState content) := by
    refine preIndexLoop_pageStopInv lpp cpl content initScanState ?_
    intro hbad
    simp [initScanState] at hbad
  obtain ⟨hlc, hcc, hlast⟩ := hinv h100
  have hoffs : (preIndexFile lpp cpl content).pagePositions =
      (preIndexLoop lpp cpl initScanState content).offsets := by
    simp [preIndexFile]
  have hgetD : (preIndexFile lpp cpl content).pagePositions.getLastD 0 = n := by
    rw [hoffs, List.getLastD_eq_getLast?, hlast, Option.getD_some, hpos]
  rw [hgetD, hoffs]
  have hcore : coreOf
      (⟨0, 0, 0, (preIndexLoop lpp cpl initScanState content).offsets, n⟩ :
        ScanState) =
      coreOf (preIndexLoop lpp cpl initScanState content) := by
    simp [coreOf, hlc, hcc, hpos]
  have hfull : fullScan lpp cpl content =
      (content.drop n).foldl (scanChar lpp cpl)
        (preIndexLoop lpp cpl initScanState content) := by
    rw [heq]
    rw [← List.foldl_append]
    rw [List.take_append_drop]
    rfl
  rw [hfull]
  exact foldl_scanChar_coreOf lpp cpl (content.drop n) hcore

/-- Invariant of the indexing loops giving offset monotonicity: the offset
table is nonempty, starts at 0, is strictly increasing, and never records a
position beyond the current stream position. -/
def monoInv (s : ScanState) : Prop :=
  s.offsets ≠ [] ∧ s.offsets.head? = some 0 ∧
    List.Chain' (· < ·) s.offsets ∧ ∀ x ∈ s.offsets, x ≤ s.pos

lemma append_singleton_monoFacts {l : List Nat} {p a : Nat}
    (hh : l.head? = some 0) (hch : List.Chain' (· < ·) l)
    (hbd : ∀ x ∈ l, x ≤ p) (ha : p < a) :
    l ++ [a] ≠ [] ∧ (l ++ [a]).head? = some 0 ∧
      List.Chain' (· < ·) (l ++ [a]) ∧ ∀ x ∈ l ++ [a], x ≤ a := by
  refine ⟨by simp, ?_, ?_, ?_⟩
  · simpa [List.head?_append] using Or.inl hh
  · rw [List.chain'_append]
    refine ⟨hch, List.chain'_singleton a, ?_⟩
    intro x hx y hy
    simp only [List.head?_cons, Option.mem_def, Option.some.injEq] at hy
    subst hy
    exact lt_of_le_of_lt (hbd x (List.mem_of_mem_getLast? hx)) ha
  · intro x hx
    rcases List.mem_append.mp hx with hx | hx
    · exact le_of_lt (lt_of_le_of_lt (hbd x hx) ha)
    · simp only [List.mem_singleton] at hx
      omega

lemma scanChar_monoInv {lpp cpl : Nat} {s : ScanState} {c : Int}
    (h : monoInv s) : monoInv (scanChar lpp cpl s c) := by
  obtain ⟨h1, h2, h3, h4⟩ := h
  have hrec := append_singleton_monoFacts h2 h3 h4
    (Nat.lt_succ_self s.pos)
  have htriv : ∀ x ∈ s.offsets, x ≤ s.pos + 1 := by
    intro x hx
    exact le_trans (h4 x hx) (Nat.le_succ _)
  simp only [scanChar]
  split_ifs <;>
    first
      | exact ⟨hrec.1, hrec.2.1, hrec.2.2.1, hrec.2.2.2⟩
      | exact ⟨h1, h2, h3, htriv⟩

lemma foldl_scanChar_monoInv (lpp cpl : Nat) :
    ∀ (l : List Int) (s : ScanState), monoInv s →
      monoInv (l.foldl (scanChar lpp cpl) s) := by
  intro l
  induction l with
  | nil => intro s h; simpa using h
  | cons c rest ih =>
    intro s h
    simpa using ih _ (scanChar_monoInv h)

lemma preIndexLoop_monoInv (lpp cpl : Nat) :
    ∀ (l : List Int) (s : ScanState), monoInv s →
      monoInv (preIndexLoop lpp cpl s l) := by
  intro l
  induction l with
  | nil => intro s h; simpa [preIndexLoop] using h
  | cons c rest ih =>
    intro s h
    by_cases hpc : s.pageCount < 100
    · simpa [preIndexLoop, hpc] using ih _ (scanChar_monoInv h)
    · simpa [preIndexLoop, hpc] using h

lemma initScanState_monoInv : monoInv initScanState := by
  refine ⟨by simp [initScanState], by simp [initScanState],
    by simp [initScanState], ?_⟩
  intro x hx
  simp [initScanState] at hx
  omega

-- ===========================================================================
-- Claim theorems: C2, C7, C1
-- ===========================================================================

/-- Claim C2 (partial-to-full promotion): for every configuration and every
file whose catalog entry was built by the cold pre-indexing pass with
`complete = false`, `openBook` continues indexing from the last cached offset
to stream exhaustion and ends with exactly the offsets of a cold scan of the
entire file from byte 0, and it persists (via `saveIndexToSD`) a record with
`complete = true` whose stored page count is the length of that cold-scan
offset table, i.e. the true total page count. -/
theorem c2_partial_promotion (lpp cpl : Nat) (content : List Int)
    (h : (preIndexFile lpp cpl content).fullyIndexed = false) :
    (openBook lpp cpl (preIndexFile lpp cpl content) content).reader.pagePositions
        = (fullScan lpp cpl content).offsets ∧
    (openBook lpp cpl (preIndexFile lpp cpl content) content).reader.totalPages
        = (fullScan lpp cpl content).offsets.length ∧
    (openBook lpp cpl (preIndexFile lpp cpl content) content).saved
        = some (saveIndexToSD (fullScan lpp cpl content).offsets content.length
            true
            (openBook lpp cpl (preIndexFile lpp cpl content) content).reader.currentPage) := by
  have hoeq := coreOf_offsets (warm_core lpp cpl content h)
  simp only [openBook, h, Bool.false_eq_true, if_false]
  exact ⟨hoeq, by rw [hoeq], by rw [hoeq]⟩

/-- Concrete witness content for claim C2: 102 newlines with one line per
page, so the cold pre-index stops partial at the 100-page limit. -/
def c2wContent : List Int := List.replicate 102 10

theorem c2_partial_promotion_witness :
    (preIndexFile 1 2 c2wContent).fullyIndexed = false ∧
    ((openBook 1 2 (preIndexFile 1 2 c2wContent) c2wContent).reader.pagePositions
        = (fullScan 1 2 c2wContent).offsets ∧
    (openBook 1 2 (preIndexFile 1 2 c2wContent) c2wContent).reader.totalPages
        = (fullScan 1 2 c2wContent).offsets.length ∧
    (openBook 1 2 (preIndexFile 1 2 c2wContent) c2wContent).saved
        = some (saveIndexToSD (fullScan 1 2 c2wContent).offsets c2wContent.length
            true
            (openBook 1 2 (preIndexFile 1 2 c2wContent) c2wContent).reader.currentPage)) :=
  ⟨by decide, c2_partial_promotion 1 2 c2wContent (by decide)⟩

lemma chain'_lt_le_getLast? :
    ∀ (l : List Nat), List.Chain' (· < ·) l →
      ∀ x ∈ l, ∀ y ∈ l.getLast?, x ≤ y := by
  intro l
  induction l with
  | nil => intro _ x hx; simp at hx
  | cons a t ih =>
    intro hch x hx y hy
    cases t with
    | nil =>
      simp at hx hy
      omega
    | cons b t' =>
      rw [List.chain'_cons] at hch
      rw [List.getLast?_cons_cons] at hy
      rcases List.mem_cons.mp hx with hx | hx
      · subst hx
        have hb := ih hch.2 b (by simp) y hy
        omega
      · exact ih hch.2 x hx y hy

lemma chain'_lt_le_getLastD (l : List Nat) (hch : List.Chain' (· < ·) l) :
    ∀ x ∈ l, x ≤ l.getLastD 0 := by
  intro x hx
  cases hl : l.getLast? with
  | none =>
    rw [List.getLast?_eq_none_iff] at hl
    subst hl
    simp at hx
  | some y =>
    have := chain'_lt_le_getLast? l hch x hx y (by rw [hl]; rfl)
    rw [List.getLastD_eq_getLast?, hl]
    simpa using this

/-- Claim C7 (offset monotonicity): every PageIndex built by the cold
pre-indexing pass, and every offset table held by the reader after `openBook`
(which either copies a fully pre-indexed table or extends a partial one by
warm continuation), starts with offset 0 and is strictly increasing. -/
theorem c7_offset_monotonicity (lpp cpl : Nat) (content : List Int) :
    ((preIndexFile lpp cpl content).pagePositions.head? = some 0 ∧
      List.Chain' (· < ·) (preIndexFile lpp cpl content).pagePositions) ∧
    ((openBook lpp cpl (preIndexFile lpp cpl content) content).reader.pagePositions.head?
        = some 0 ∧
      List.Chain' (· < ·)
        (openBook lpp cpl (preIndexFile lpp cpl content) content).reader.pagePositions) := by
  have hcold : monoInv (preIndexLoop lpp cpl initScanState content) :=
    preIndexLoop_monoInv lpp cpl content initScanState initScanState_monoInv
  obtain ⟨hc1, hc2, hc3, hc4⟩ := hcold
  have hcoldPos : (preIndexFile lpp cpl content).pagePositions =
      (preIndexLoop lpp cpl initScanState content).offsets := by
    simp [preIndexFile]
  refine ⟨⟨by rw [hcoldPos]; exact hc2, by rw [hcoldPos]; exact hc3⟩, ?_⟩
  by_cases hfull : (preIndexFile lpp cpl content).fullyIndexed
  · simp only [openBook, hfull, if_true]
    exact ⟨by rw [hcoldPos]; exact hc2, by rw [hcoldPos]; exact hc3⟩
  · simp only [Bool.not_eq_true] at hfull
    simp only [openBook, hfull, Bool.false_eq_true, if_false]
    have hstart : monoInv
        (⟨0, 0, 0, (preIndexFile lpp cpl content).pagePositions,
          (preIndexFile lpp cpl content).pagePositions.getLastD 0⟩ :
          ScanState) := by
      refine ⟨by rw [hcoldPos]; exact hc1, by rw [hcoldPos]; exact hc2,
        by rw [hcoldPos]; exact hc3, ?_⟩
      intro x hx
      exact chain'_lt_le_getLastD _ (hcoldPos ▸ hc3) x hx
    have hwarm := foldl_scanChar_monoInv lpp cpl
      (content.drop ((preIndexFile lpp cpl content).pagePositions.getLastD 0))
      _ hstart
    exact ⟨hwarm.2.1, hwarm.2.2.1⟩

/-- Claim C1 (paginator/renderer consistency) fails on the code: with
`charsPerLine = 4`, `linesPerPage = 1` and the text "aaaa b", the indexing
loops record the second page at byte 4 (raw counting: a synthetic break after
exactly 4 printable characters), but re-wrapping the first page's byte range
with `findLineBreak` ends the single page line at byte 3 (the forced mid-word
cut stops one character before the width limit), so the rendered page does
not end at the recorded next page-start offset.  The two segmentations are
not identical. -/
theorem c1_divergence :
    (fullScan 1 4 [97, 97, 97, 97, 32, 98]).offsets = [0, 4] ∧
    (findLineBreak [97, 97, 97, 97, 32, 98] 0 4).nextStart = 3 ∧
    (findLineBreak [97, 97, 97, 97, 32, 98] 0 4).nextStart ≠
      (fullScan 1 4 [97, 97, 97, 97, 32, 98]).offsets.getD 1 0 := by
  decide

-- ===========================================================================
-- Closed forms of the scanners on newline-only content (for claim C3)
-- ===========================================================================

lemma foldl_nl_run (lpp cpl : Nat) :
    ∀ (m : Nat) (s : ScanState), s.charCount = 0 → s.lineCount + m = lpp →
      1 ≤ m →
      List.foldl (scanChar lpp cpl) s (List.replicate m 10) =
        ⟨0, 0, s.pageCount + 1, s.offsets ++ [s.pos + m], s.pos + m⟩ := by
  intro m
  induction m with
  | zero => intro s _ _ hm; omega
  | succ m ih =>
    intro s hcc hlc hm
    by_cases hm0 : m = 0
    · subst hm0
      have hyes : lpp ≤ s.lineCount + 1 := by omega
      obtain ⟨lc, cc, p, offs, pos⟩ := s
      simp only at hcc
      subst hcc
      simp [scanChar, hyes]
    · have hm1 : 1 ≤ m := by omega
      rw [List.replicate_succ, List.foldl_cons]
      have hnot : ¬ lpp ≤ s.lineCount + 1 := by omega
      have hscan : scanChar lpp cpl s 10 =
          ⟨s.lineCount + 1, 0, s.pageCount, s.offsets, s.pos + 1⟩ := by
        simp [scanChar, hnot]
      rw [hscan, ih _ rfl (by show s.lineCount + 1 + m = lpp; omega) hm1]
      have harith : s.pos + 1 + m = s.pos + (m + 1) := by omega
      rw [harith]

lemma nl_offsets_reshape (lpp : Nat) (offs : List Nat) (pos k : Nat) :
    offs ++ [pos + lpp] ++
        (List.range k).map (fun j => pos + lpp + lpp * (j + 1)) =
      offs ++ (List.range (k + 1)).map (fun j => pos + lpp * (j + 1)) := by
  rw [List.append_assoc, List.singleton_append]
  congr 1
  rw [List.range_succ_eq_map, List.map_cons, List.map_map]
  congr 1
  · show pos + lpp = pos + lpp * (0 + 1)
    ring
  · refine List.map_congr_left ?_
    intro j _
    show pos + lpp + lpp * (j + 1) = pos + lpp * (j + 1 + 1)
    ring

lemma foldl_nl_pages (lpp cpl : Nat) (hlpp : 1 ≤ lpp) :
    ∀ (k : Nat) (s : ScanState), s.charCount = 0 → s.lineCount = 0 →
      List.foldl (scanChar lpp cpl) s (List.replicate (lpp * k) 10) =
        ⟨0, 0, s.pageCount + k,
          s.offsets ++ (List.range k).map (fun j => s.pos + lpp * (j + 1)),
          s.pos + lpp * k⟩ := by
  intro k
  induction k with
  | zero =>
    intro s hcc hlc
    obtain ⟨lc, cc, p, offs, pos⟩ := s
    simp only at hcc hlc
    subst hcc
    subst hlc
    simp
  | succ k ih =>
    intro s hcc hlc
    have hrep : List.replicate (lpp * (k + 1)) (10 : Int) =
        List.replicate lpp 10 ++ List.replicate (lpp * k) 10 := by
      have hm : lpp * (k + 1) = lpp + lpp * k := by ring
      rw [hm, List.replicate_add]
    rw [hrep, List.foldl_append]
    rw [foldl_nl_run lpp cpl lpp s hcc (by omega) hlpp]
    rw [ih _ rfl rfl]
    rw [nl_offsets_reshape]
    have h1 : s.pageCount + 1 + k = s.pageCount + (k + 1) := by omega
    have h2 : s.pos + lpp + lpp * k = s.pos + lpp * (k + 1) := by ring
    rw [h1, h2]

lemma preIndexLoop_nl_run (lpp cpl : Nat) :
    ∀ (m : Nat) (s : ScanState) (l : List Int), s.charCount = 0 →
      s.lineCount + m = lpp → 1 ≤ m → s.pageCount < 100 →
      preIndexLoop lpp cpl s (List.replicate m 10 ++ l) =
        preIndexLoop lpp cpl
          ⟨0, 0, s.pageCount + 1, s.offsets ++ [s.pos + m], s.pos + m⟩ l := by
  intro m
  induction m with
  | zero => intro s l _ _ hm; omega
  | succ m ih =>
    intro s l hcc hlc hm hpc
    by_cases hm0 : m = 0
    · subst hm0
      have hyes : lpp ≤ s.lineCount + 1 := by omega
      obtain ⟨lc, cc, p, offs, pos⟩ := s
      simp only at hcc hpc
      subst hcc
      simp [preIndexLoop, hpc, scanChar, hyes]
    · have hm1 : 1 ≤ m := by omega
      rw [List.replicate_succ, List.cons_append]
      simp only [preIndexLoop, if_pos hpc]
      have hnot : ¬ lpp ≤ s.lineCount + 1 := by omega
      have hscan : scanChar lpp cpl s 10 =
          ⟨s.lineCount + 1, 0, s.pageCount, s.offsets, s.pos + 1⟩ := by
        simp [scanChar, hnot]
      rw [hscan, ih _ l rfl (by show s.lineCount + 1 + m = lpp; omega) hm1
        (by show s.pageCount < 100; omega)]
      have harith : s.pos + 1 + m = s.pos + (m + 1) := by omega
      rw [harith]

lemma preIndexLoop_nl_pages (lpp cpl : Nat) (hlpp : 1 ≤ lpp) :
    ∀ (k : Nat) (s : ScanState) (l : List Int), s.charCount = 0 →
      s.lineCount = 0 → s.pageCount + k ≤ 100 →
      preIndexLoop lpp cpl s (List.replicate (lpp * k) 10 ++ l) =
        preIndexLoop lpp cpl
          ⟨0, 0, s.pageCount + k,
            s.offsets ++ (List.range k).map (fun j => s.pos + lpp * (j + 1)),
            s.pos + lpp * k⟩ l := by
  intro k
  induction k with
  | zero =>
    intro s l hcc hlc _
    obtain ⟨lc, cc, p, offs, pos⟩ := s
    simp only at hcc hlc
    subst hcc
    subst hlc
    simp
  | succ k ih =>
    intro s l hcc hlc hpc
    have hrep : List.replicate (lpp * (k + 1)) (10 : Int) ++ l =
        List.replicate lpp 10 ++ (List.replicate (lpp * k) 10 ++ l) := by
      have hm : lpp * (k + 1) = lpp + lpp * k := by ring
      rw [hm, List.replicate_add, List.append_assoc]
    rw [hrep]
    rw [preIndexLoop_nl_run lpp cpl lpp s _ hcc (by omega) hlpp (by omega)]
    rw [ih _ l rfl rfl (by show s.pageCount + 1 + k ≤ 100; omega)]
    rw [nl_offsets_reshape]
    have h1 : s.pageCount + 1 + k = s.pageCount + (k + 1) := by omega
    have h2 : s.pos + lpp + lpp * k = s.pos + lpp * (k + 1) := by ring
    rw [h1, h2]

lemma preIndexLoop_stop (lpp cpl : Nat) {s : ScanState}
    (h : 100 ≤ s.pageCount) : ∀ (l : List Int), preIndexLoop lpp cpl s l = s := by
  intro l
  cases l with
  | nil => rfl
  | cons c rest => simp [preIndexLoop]; omega

lemma nextPage_iterate :
    ∀ (k : Nat) (r : ReaderState), r.fileOpen = true →
      r.currentPage ≤ r.totalPages - 1 →
      nextPage^[k] r = ⟨min (r.currentPage + k) (r.totalPages - 1),
        r.totalPages, r.pagePositions, true⟩ := by
  intro k
  induction k with
  | zero =>
    intro r hopen hle
    obtain ⟨cp, tp, pp, fo⟩ := r
    simp only at hopen hle
    subst hopen
    simp only [Function.iterate_zero_apply]
    have hmin : min (cp + 0) (tp - 1) = cp := by omega
    rw [hmin]
  | succ k ih =>
    intro r hopen hle
    obtain ⟨cp, tp, pp, fo⟩ := r
    simp only at hopen hle
    subst hopen
    rw [Function.iterate_succ_apply]
    by_cases hlt : cp < tp - 1
    · have hnp : nextPage ⟨cp, tp, pp, true⟩ = ⟨cp + 1, tp, pp, true⟩ := by
        simp [nextPage, hlt]
      rw [hnp, ih _ rfl (by show cp + 1 ≤ tp - 1; omega)]
      have harith : cp + 1 + k = cp + (k + 1) := by omega
      dsimp only
      rw [harith]
    · have hnp : nextPage ⟨cp, tp, pp, true⟩ = ⟨cp, tp, pp, true⟩ := by
        simp [nextPage, hlt]
      rw [hnp, ih _ rfl hle]
      have harith : min (cp + k) (tp - 1) = min (cp + (k + 1)) (tp - 1) := by
        omega
      dsimp only
      rw [harith]

/-- The concrete file refuting claim C3: 2501 newline bytes.  With the
firmware's layout settings (25 lines per page, 38 characters per line) it
paginates to 101 pages, while the cold pre-index stops partial at the
100-page limit. -/
def c3content : List Int := List.replicate 2501 10

lemma c3_preIndexLoop_eval :
    preIndexLoop 25 38 initScanState c3content =
      ⟨0, 0, 100, [0] ++ (List.range 99).map (fun j => 25 * (j + 1)), 2475⟩ := by
  have hc : c3content = List.replicate (25 * 99) 10 ++ List.replicate 26 10 := by
    rw [← List.replicate_add]
    norm_num [c3content]
  rw [hc]
  rw [preIndexLoop_nl_pages 25 38 (by norm_num) 99 initScanState _ rfl rfl
    (by decide)]
  rw [preIndexLoop_stop 25 38 (by decide)]
  simp [initScanState]

lemma c3_content_length : c3content.length = 2501 := by
  show (List.replicate 2501 (10 : Int)).length = 2501
  rw [List.length_replicate]

lemma c3_cache_fullyIndexed :
    (preIndexFile 25 38 c3content).fullyIndexed = false := by
  simp only [preIndexFile]
  rw [c3_preIndexLoop_eval, c3_content_length]
  rfl

lemma c3_cache_length :
    (preIndexFile 25 38 c3content).pagePositions.length = 100 := by
  simp only [preIndexFile]
  rw [c3_preIndexLoop_eval]
  simp

lemma c3_cache_lastReadPage :
    (preIndexFile 25 38 c3content).lastReadPage = 0 := by
  simp [preIndexFile]

lemma c3_fullScan_length :
    (fullScan 25 38 c3content).offsets.length = 101 := by
  have hc : c3content = List.replicate (25 * 100) 10 ++ List.replicate 1 10 := by
    rw [← List.replicate_add]
    norm_num [c3content]
  have hfs : fullScan 25 38 c3content =
      List.foldl (scanChar 25 38) initScanState c3content := rfl
  rw [hfs, hc, List.foldl_append]
  rw [foldl_nl_pages 25 38 (by norm_num) 100 initScanState rfl rfl]
  have hstep : List.foldl (scanChar 25 38)
      (⟨0, 0, initScanState.pageCount + 100,
        initScanState.offsets ++
          (List.range 100).map (fun j => initScanState.pos + 25 * (j + 1)),
        initScanState.pos + 25 * 100⟩ : ScanState) (List.replicate 1 10) =
      ⟨1, 0, initScanState.pageCount + 100,
        initScanState.offsets ++
          (List.range 100).map (fun j => initScanState.pos + 25 * (j + 1)),
        initScanState.pos + 25 * 100 + 1⟩ := by
    simp [List.replicate, scanChar]
  rw [hstep]
  simp [initScanState]

lemma openBook_fileOpen (lpp cpl : Nat) (cache : FileCache)
    (content : List Int) :
    (openBook lpp cpl cache content).reader.fileOpen = true := by
  simp only [openBook]
  by_cases h : cache.fullyIndexed <;> simp [h]

lemma openBook_currentPage (lpp cpl : Nat) (cache : FileCache)
    (content : List Int) :
    (openBook lpp cpl cache content).reader.currentPage =
      if 0 < cache.lastReadPage ∧
          cache.lastReadPage < cache.pagePositions.length
      then cache.lastReadPage else 0 := by
  simp only [openBook]
  by_cases h : cache.fullyIndexed <;> simp [h]

lemma openBook_totalPages_warm (lpp cpl : Nat) (cache : FileCache)
    (content : List Int) (h : cache.fullyIndexed = false) :
    (openBook lpp cpl cache content).reader.totalPages =
      ((content.drop (cache.pagePositions.getLastD 0)).foldl (scanChar lpp cpl)
        ⟨0, 0, 0, cache.pagePositions,
          cache.pagePositions.getLastD 0⟩).offsets.length := by
  simp only [openBook, h, Bool.false_eq_true, if_false]

lemma closeBook_cache (cache : FileCache) (r : ReaderState)
    (h : r.fileOpen = true) :
    (closeBook cache r).1 =
      ⟨cache.pagePositions, cache.fileSize, cache.fullyIndexed,
        r.currentPage⟩ := by
  simp [closeBook, h]

/-- Claim C3 counterexample: open the 2501-newline file (its catalog entry is
the partial 100-page pre-index), page forward one hundred times to page 100
(0-based; the warm continuation makes totalPages 101, so page 100 is valid),
close the book, and reopen the same unmodified file.  The resume restore test
`lastReadPage < cache.pagePositions.size()` (main.cpp:834) compares against
the still-partial in-memory catalog entry (100 offsets), so the saved page
100 is rejected and `currentPage` comes back as 0, not 100, even though
100 < totalPages = 101 at reopen time. -/
theorem c3_resume_counterexample :
    (nextPage^[100]
        (openBook 25 38 (preIndexFile 25 38 c3content) c3content).reader).currentPage
      = 100 ∧
    100 < (openBook 25 38
        (closeBook (preIndexFile 25 38 c3content)
          (nextPage^[100]
            (openBook 25 38 (preIndexFile 25 38 c3content) c3content).reader)).1
        c3content).reader.totalPages ∧
    (openBook 25 38
        (closeBook (preIndexFile 25 38 c3content)
          (nextPage^[100]
            (openBook 25 38 (preIndexFile 25 38 c3content) c3content).reader)).1
        c3content).reader.currentPage = 0 := by
  have hoeq := coreOf_offsets (warm_core 25 38 c3content c3_cache_fullyIndexed)
  have hcp1 : (openBook 25 38 (preIndexFile 25 38 c3content) c3content).reader.currentPage
      = 0 := by
    rw [openBook_currentPage, c3_cache_lastReadPage]
    norm_num
  have htp1 : (openBook 25 38 (preIndexFile 25 38 c3content) c3content).reader.totalPages
      = 101 := by
    rw [openBook_totalPages_warm 25 38 _ _ c3_cache_fullyIndexed, hoeq,
      c3_fullScan_length]
  have hIter : nextPage^[100]
      (openBook 25 38 (preIndexFile 25 38 c3content) c3content).reader =
      ⟨100, 101,
        (openBook 25 38 (preIndexFile 25 38 c3content) c3content).reader.pagePositions,
        true⟩ := by
    rw [nextPage_iterate 100 _ (openBook_fileOpen 25 38 _ _)
      (by rw [hcp1, htp1]; norm_num), hcp1, htp1]
    norm_num
  rw [hIter]
  refine ⟨rfl, ?_, ?_⟩
  · rw [closeBook_cache _ _ rfl]
    dsimp only
    have hfi2 : (⟨(preIndexFile 25 38 c3content).pagePositions,
        (preIndexFile 25 38 c3content).fileSize,
        (preIndexFile 25 38 c3content).fullyIndexed, (100 : Nat)⟩ :
        FileCache).fullyIndexed = false := c3_cache_fullyIndexed
    rw [openBook_totalPages_warm 25 38 _ c3content hfi2]
    dsimp only
    rw [hoeq, c3_fullScan_length]
    norm_num
  · rw [closeBook_cache _ _ rfl]
    dsimp only
    rw [openBook_currentPage]
    dsimp only
    rw [c3_cache_length]
    norm_num

/-- Claim C3 amended: the resume round-trip `closeBook` at page `k` then
`openBook` on the same unmodified file restores `currentPage == k` provided
`k` is smaller than the number of page offsets held by the in-memory catalog
entry at reopen time (for a complete catalog entry this equals `totalPages`;
for a partial pre-index it is the 100-offset pre-index prefix, which is what
the code actually compares against). -/
theorem c3_resume_roundtrip_amended (lpp cpl : Nat) (cache : FileCache)
    (r : ReaderState) (content : List Int)
    (hopen : r.fileOpen = true)
    (hk : r.currentPage < cache.pagePositions.length) :
    (openBook lpp cpl (closeBook cache r).1 content).reader.currentPage
      = r.currentPage := by
  rw [closeBook_cache _ _ hopen]
  rw [openBook_currentPage]
  dsimp only
  by_cases h0 : 0 < r.currentPage
  · simp [h0, hk]
  · have hz : r.currentPage = 0 := by omega
    simp [hz]

theorem c3_resume_roundtrip_amended_witness :
    (⟨1, 2, [0, 30], true⟩ : ReaderState).fileOpen = true ∧
    (⟨1, 2, [0, 30], true⟩ : ReaderState).currentPage <
      (⟨[0, 30], 60, true, 0⟩ : FileCache).pagePositions.length ∧
    (openBook 25 38
        (closeBook ⟨[0, 30], 60, true, 0⟩ ⟨1, 2, [0, 30], true⟩).1
        [97]).reader.currentPage
      = (⟨1, 2, [0, 30], true⟩ : ReaderState).currentPage :=
  ⟨rfl, by decide,
    c3_resume_roundtrip_amended 25 38 ⟨[0, 30], 60, true, 0⟩
      ⟨1, 2, [0, 30], true⟩ [97] rfl (by decide)⟩

-- ===========================================================================
-- findLineBreak lemmas (claims C9 and C5)
-- ===========================================================================

lemma skipWSAux_ge : ∀ (l : List Int) (n : Nat), n ≤ skipWSAux l n := by
  intro l
  induction l with
  | nil => intro n; simp [skipWSAux]
  | cons c rest ih =>
    intro n
    simp only [skipWSAux]
    split_ifs
    · exact le_trans (Nat.le_succ n) (ih (n + 1))
    · exact le_rfl

lemma skipWSAux_le : ∀ (l : List Int) (n : Nat), skipWSAux l n ≤ n + l.length := by
  intro l
  induction l with
  | nil => intro n; simp [skipWSAux]
  | cons c rest ih =>
    intro n
    simp only [skipWSAux]
    split_ifs
    · have := ih (n + 1)
      simp only [List.length_cons]
      omega
    · simp

lemma skipWS_ge (buffer : List Int) (n : Nat) : n ≤ skipWS buffer n :=
  skipWSAux_ge _ n

lemma skipWS_le (buffer : List Int) (n : Nat) (h : n ≤ buffer.length) :
    skipWS buffer n ≤ buffer.length := by
  have := skipWSAux_le (buffer.drop n) n
  rw [List.length_drop] at this
  unfold skipWS
  omega

lemma updateLbp_le {i : Nat} {lbp : Option Nat} {inWord : Bool} {c : Int}
    (h : ∀ bp, lbp = some bp → bp ≤ i) :
    ∀ bp, updateLbp i lbp inWord c = some bp → bp ≤ i + 1 := by
  intro bp hbp
  unfold updateLbp at hbp
  split_ifs at hbp <;>
    first
      | (simp only [Option.some.injEq] at hbp; omega)
      | exact le_trans (h bp hbp) (Nat.le_succ i)

lemma flbLoop_bounds (buffer : List Int) (lineStart maxChars : Nat)
    (hmx : 2 ≤ maxChars) (hls : lineStart < buffer.length) :
    ∀ (rest : List Int) (i charCount : Nat) (lbp : Option Nat) (w : Bool),
      rest = buffer.drop i → lineStart ≤ i →
      (∀ bp, lbp = some bp → bp ≤ i) →
      lineStart + charCount ≤ i →
      lineStart ≤ (flbLoop buffer lineStart maxChars rest i charCount lbp w).lineEnd ∧
      (flbLoop buffer lineStart maxChars rest i charCount lbp w).lineEnd ≤
        (flbLoop buffer lineStart maxChars rest i charCount lbp w).nextStart ∧
      (flbLoop buffer lineStart maxChars rest i charCount lbp w).nextStart ≤
        buffer.length ∧
      lineStart < (flbLoop buffer lineStart maxChars rest i charCount lbp w).nextStart := by
  intro rest
  induction rest with
  | nil =>
    intro i charCount lbp w hdrop hi hbp hcc
    simp only [flbLoop]
    omega
  | cons c rest ih =>
    intro i charCount lbp w hdrop hi hbp hcc
    have hi_lt : i < buffer.length := by
      by_contra hcon
      push_neg at hcon
      have hnil : buffer.drop i = [] := List.drop_eq_nil_of_le hcon
      exact List.cons_ne_nil c rest (hdrop.trans hnil)
    have hrest : rest = buffer.drop (i + 1) := by
      have htl := List.tail_drop buffer i
      rw [← hdrop] at htl
      simpa using htl
    have hrest_len : ∀ x, rest.head? = some x → i + 1 < buffer.length := by
      intro x hx
      have : rest ≠ [] := by
        intro hcon
        rw [hcon] at hx
        simp at hx
      by_contra hcon
      push_neg at hcon
      have : buffer.drop (i + 1) = [] := List.drop_eq_nil_of_le hcon
      rw [this] at hrest
      exact ‹rest ≠ []› hrest
    simp only [flbLoop]
    by_cases h10 : c = 10
    · simp only [if_pos h10]
      by_cases hcr : rest.head? = some 13
      · have := hrest_len 13 hcr
        simp only [if_pos hcr]
        refine ⟨hi, by omega, by omega, by omega⟩
      · simp only [if_neg hcr]
        refine ⟨hi, by omega, by omega, by omega⟩
    · simp only [if_neg h10]
      by_cases h13 : c = 13
      · simp only [if_pos h13]
        by_cases hnl : rest.head? = some 10
        · have := hrest_len 10 hnl
          simp only [if_pos hnl]
          refine ⟨hi, by omega, by omega, by omega⟩
        · simp only [if_neg hnl]
          refine ⟨hi, by omega, by omega, by omega⟩
      · simp only [if_neg h13]
        by_cases h32 : 32 ≤ c
        · simp only [if_pos h32]
          by_cases hwide : maxChars ≤ charCount + 1
          · simp only [if_pos hwide]
            cases hl : updateLbp i lbp w c with
            | none =>
              dsimp only
              refine ⟨by omega, le_rfl, by omega, by omega⟩
            | some bp =>
              dsimp only
              have hbp1 : bp ≤ i + 1 := updateLbp_le hbp bp hl
              by_cases hgt : lineStart < bp
              · simp only [if_pos hgt]
                have h1 : bp ≤ skipWS buffer bp := skipWS_ge buffer bp
                have h2 : skipWS buffer bp ≤ buffer.length :=
                  skipWS_le buffer bp (by omega)
                exact ⟨by omega, by omega, by omega, by omega⟩
              · simp only [if_neg hgt]
                refine ⟨by omega, le_rfl, by omega, by omega⟩
          · simp only [if_neg hwide]
            exact ih (i + 1) (charCount + 1) _ _ hrest (by omega)
              (updateLbp_le hbp) (by omega)
        · simp only [if_neg h32]
          exact ih (i + 1) charCount lbp w hrest (by omega)
            (fun bp hb => le_trans (hbp bp hb) (Nat.le_succ i)) (by omega)

/-- Claim C9 (line-break progress and bounds): for every buffer, every start
position inside the buffer, and every width of at least 2, `findLineBreak`
returns `lineStart ≤ lineEnd ≤ nextStart ≤ bufLen` with `nextStart >
lineStart`, strict progress, so the page-rendering loop of `displayPageFull`
that advances to `nextStart` terminates. -/
theorem c9_line_break_progress (buffer : List Int) (lineStart maxChars : Nat)
    (h1 : lineStart < buffer.length) (h2 : 2 ≤ maxChars) :
    lineStart ≤ (findLineBreak buffer lineStart maxChars).lineEnd ∧
    (findLineBreak buffer lineStart maxChars).lineEnd ≤
      (findLineBreak buffer lineStart maxChars).nextStart ∧
    (findLineBreak buffer lineStart maxChars).nextStart ≤ buffer.length ∧
    lineStart < (findLineBreak buffer lineStart maxChars).nextStart := by
  have hnot : ¬ buffer.length ≤ lineStart := by omega
  simp only [findLineBreak, if_neg hnot]
  exact flbLoop_bounds buffer lineStart maxChars h2 h1 (buffer.drop lineStart)
    lineStart 0 none false rfl le_rfl (by intro bp h; simp at h) (by omega)

theorem c9_line_break_progress_witness :
    (0 : Nat) < ([97, 32, 98, 98] : List Int).length ∧ (2 : Nat) ≤ 3 ∧
    (0 ≤ (findLineBreak [97, 32, 98, 98] 0 3).lineEnd ∧
      (findLineBreak [97, 32, 98, 98] 0 3).lineEnd ≤
        (findLineBreak [97, 32, 98, 98] 0 3).nextStart ∧
      (findLineBreak [97, 32, 98, 98] 0 3).nextStart ≤
        ([97, 32, 98, 98] : List Int).length ∧
      0 < (findLineBreak [97, 32, 98, 98] 0 3).nextStart) :=
  ⟨by decide, by decide,
    c9_line_break_progress [97, 32, 98, 98] 0 3 (by decide) (by decide)⟩

lemma c5_word_loop (buffer : List Int)
    (hw : ∀ c ∈ buffer, 33 ≤ c ∧ c ≤ 126 ∧ c ≠ 45) :
    ∀ (k i charCount : Nat) (w : Bool), charCount + k = 8 →
      i + k < buffer.length →
      flbLoop buffer 0 9 (buffer.drop i) i charCount none w =
        ⟨i + k, i + k⟩ := by
  intro k
  induction k with
  | zero =>
    intro i charCount w hcc hlen
    have hi : i < buffer.length := by omega
    have hne : buffer.drop i ≠ [] := by
      intro hnil
      have := List.drop_eq_nil_iff.mp hnil
      omega
    obtain ⟨c, rest, hcr⟩ := List.exists_cons_of_ne_nil hne
    rw [hcr]
    have hcmem : c ∈ buffer := by
      refine List.drop_subset i buffer ?_
      rw [hcr]
      simp
    obtain ⟨h33, h126, h45⟩ := hw c hcmem
    simp only [flbLoop]
    rw [if_neg (by omega : ¬ c = 10), if_neg (by omega : ¬ c = 13),
      if_pos (by omega : (32 : Int) ≤ c), if_pos (by omega : 9 ≤ charCount + 1)]
    have hlbp : updateLbp i none w c = none := by
      unfold updateLbp
      rw [if_neg (by omega : ¬ (c = 32 ∨ c = 9)), if_neg h45]
    rw [hlbp]
    dsimp only
    simp
  | succ k ih =>
    intro i charCount w hcc hlen
    have hi : i < buffer.length := by omega
    have hne : buffer.drop i ≠ [] := by
      intro hnil
      have := List.drop_eq_nil_iff.mp hnil
      omega
    obtain ⟨c, rest, hcr⟩ := List.exists_cons_of_ne_nil hne
    rw [hcr]
    have hcmem : c ∈ buffer := by
      refine List.drop_subset i buffer ?_
      rw [hcr]
      simp
    obtain ⟨h33, h126, h45⟩ := hw c hcmem
    have hrest : rest = buffer.drop (i + 1) := by
      have htl := List.tail_drop buffer i
      rw [hcr] at htl
      simpa using htl
    simp only [flbLoop]
    rw [if_neg (by omega : ¬ c = 10), if_neg (by omega : ¬ c = 13),
      if_pos (by omega : (32 : Int) ≤ c),
      if_neg (by omega : ¬ 9 ≤ charCount + 1)]
    have hlbp : updateLbp i none w c = none := by
      unfold updateLbp
      rw [if_neg (by omega : ¬ (c = 32 ∨ c = 9)), if_neg h45]
    rw [hlbp, hrest]
    rw [ih (i + 1) (charCount + 1) (updateWord w c) (by omega) (by omega)]
    have harith : i + 1 + k = i + (k + 1) := by omega
    rw [harith]

/-- Claim C5 counterexample: on a single 20-character token with no spaces,
tabs, hyphens or newlines (twenty 'a' bytes), `findLineBreak(buffer, 20, 0,
9)` forces the cut at `lineEnd = 8`, so the returned line holds 8 printable
characters, not the 9 the claim states. -/
theorem c5_forced_cut_counterexample :
    (findLineBreak (List.replicate 20 (97 : Int)) 0 9).lineEnd = 8 ∧
    ((List.replicate 20 (97 : Int)).take
        (findLineBreak (List.replicate 20 (97 : Int)) 0 9).lineEnd).countP
      (fun c => decide (32 ≤ c)) ≠ 9 := by
  decide

/-- Claim C5 amended: for every buffer that is a single token of 20 printable
characters with no spaces, tabs, hyphens or newlines, `findLineBreak(buffer,
20, 0, 9)` finds no break-worthy position and forces a hard cut with
`lineEnd = nextStart = 8`: the returned line contains exactly 8 printable
characters (one less than `maxWidth`: the forced cut excludes the character
at which the printable count reached `maxWidth`), and never more than
`maxWidth`. -/
theorem c5_forced_cut_amended (buffer : List Int) (hlen : buffer.length = 20)
    (hw : ∀ c ∈ buffer, 33 ≤ c ∧ c ≤ 126 ∧ c ≠ 45) :
    findLineBreak buffer 0 9 = ⟨8, 8⟩ ∧
    ((buffer.take (findLineBreak buffer 0 9).lineEnd).countP
        (fun c => decide (32 ≤ c))) = 8 := by
  have hfl : findLineBreak buffer 0 9 = ⟨8, 8⟩ := by
    unfold findLineBreak
    rw [if_neg (by omega)]
    have hloop := c5_word_loop buffer hw 8 0 0 false (by omega) (by omega)
    simpa using hloop
  refine ⟨hfl, ?_⟩
  rw [hfl]
  have hall : ∀ a ∈ buffer.take 8, (fun c => decide ((32 : Int) ≤ c)) a = true := by
    intro a ha
    have hmem : a ∈ buffer := List.take_subset _ _ ha
    have := hw a hmem
    simp only [decide_eq_true_eq]
    omega
  have hcount := List.countP_eq_length.mpr hall
  rw [hcount, List.length_take]
  omega

theorem c5_forced_cut_amended_witness :
    (List.replicate 20 (97 : Int)).length = 20 ∧
    (∀ c ∈ List.replicate 20 (97 : Int), 33 ≤ c ∧ c ≤ 126 ∧ c ≠ 45) ∧
    (findLineBreak (List.replicate 20 (97 : Int)) 0 9 = ⟨8, 8⟩ ∧
      (((List.replicate 20 (97 : Int)).take
          (findLineBreak (List.replicate 20 (97 : Int)) 0 9).lineEnd).countP
        (fun c => decide (32 ≤ c))) = 8) :=
  ⟨by decide, by decide, c5_forced_cut_amended _ (by decide) (by decide)⟩

-- ===========================================================================
-- Index Store lemmas (claims C6, C4, C10, C8)
-- ===========================================================================

/-- Claim C6 (staleness invalidation): whenever the fileSize stored in an
index record differs from the live file's current size, `loadIndexFromSD`
returns false and deletes the on-disk record (`SD.remove`), so the stale
record is no longer readable afterward. -/
theorem c6_staleness_invalidation (idx : List Nat) (sz : Nat)
    (h : storedFileSize idx ≠ sz) :
    (loadIndexFromSD idx (some sz)).ok = false ∧
    (loadIndexFromSD idx (some sz)).removed = true := by
  simp [loadIndexFromSD, h]

theorem c6_staleness_invalidation_witness :
    storedFileSize [] ≠ 1 ∧
    ((loadIndexFromSD [] (some 1)).ok = false ∧
      (loadIndexFromSD [] (some 1)).removed = true) :=
  ⟨by decide, c6_staleness_invalidation [] 1 (by decide)⟩

/-- A version-2 index record whose header declares `pageCount = 2` but whose
body holds a single 4-byte offset entry (value 7): 18 bytes in total where a
well-formed record would need 22. -/
def c4record : List Nat := [2] ++ le4 5 ++ le4 2 ++ [1] ++ le4 0 ++ le4 7

/-- Claim C4 fails on the code: `loadIndexFromSD` never validates the
declared `pageCount` against the bytes actually present.  On the truncated
record `c4record` (matching live file size 5) it returns true and fabricates
the missing offset as 0 instead of reporting NotFound. -/
theorem c4_truncated_record_accepted :
    c4record.length = 18 ∧
    18 < 14 + 4 * read4 c4record 5 ∧
    (loadIndexFromSD c4record (some 5)).ok = true ∧
    (loadIndexFromSD c4record (some 5)).cache.pagePositions = [7, 0] := by
  decide

lemma read4_le4_append (n : Nat) (rest : List Nat) (h : n < 4294967296) :
    read4 (le4 n ++ rest) 0 = n := by
  show n % 256 + 256 * (n / 256 % 256) + 65536 * (n / 65536 % 256) +
      16777216 * (n / 16777216 % 256) = n
  have h1 : n / 65536 = n / 256 / 256 := by
    norm_num [Nat.div_div_eq_div_mul]
  have h2 : n / 16777216 = n / 256 / 256 / 256 := by
    norm_num [Nat.div_div_eq_div_mul]
  rw [h1, h2]
  omega

lemma read4_append (l1 l2 : List Nat) (p : Nat) :
    read4 (l1 ++ l2) (l1.length + p) = read4 l2 p := by
  unfold read4
  rw [List.getD_append_right l1 l2 0 (l1.length + p) (by omega),
    List.getD_append_right l1 l2 0 (l1.length + p + 1) (by omega),
    List.getD_append_right l1 l2 0 (l1.length + p + 2) (by omega),
    List.getD_append_right l1 l2 0 (l1.length + p + 3) (by omega)]
  have e0 : l1.length + p - l1.length = p := by omega
  have e1 : l1.length + p + 1 - l1.length = p + 1 := by omega
  have e2 : l1.length + p + 2 - l1.length = p + 2 := by omega
  have e3 : l1.length + p + 3 - l1.length = p + 3 := by omega
  rw [e0, e1, e2, e3]

lemma read4_shift (l1 l2 : List Nat) (p q : Nat) (h : q = l1.length + p) :
    read4 (l1 ++ l2) q = read4 l2 p := by
  subst h
  exact read4_append l1 l2 p

lemma getD_shift (l1 l2 : List Nat) (p q : Nat) (h : q = l1.length + p) :
    (l1 ++ l2).getD q 0 = l2.getD p 0 := by
  subst h
  rw [List.getD_append_right l1 l2 0 (l1.length + p) (by omega)]
  congr 1
  omega

lemma read4_flatMap_le4 :
    ∀ (P : List Nat) (j : Nat), (∀ p ∈ P, p < 4294967296) → j < P.length →
      read4 (P.flatMap le4) (4 * j) = P.getD j 0 := by
  intro P
  induction P with
  | nil => intro j _ hj; simp at hj
  | cons q P ih =>
    intro j hP hj
    rw [List.flatMap_cons]
    cases j with
    | zero =>
      simp only [Nat.mul_zero]
      rw [read4_le4_append q _ (hP q (by simp))]
      rfl
    | succ j =>
      rw [read4_shift (le4 q) _ (4 * j) (4 * (j + 1))
        (by simp only [le4, List.length_cons, List.length_nil]; omega)]
      rw [ih j (fun p hp => hP p (by simp [hp])) (by simpa using hj)]
      rfl

lemma saveIndexToSD_eq (P : List Nat) (S : Nat) (c : Bool) (r : Nat) :
    saveIndexToSD P S c r =
      [2] ++ (le4 S ++ (le4 P.length ++ ([if c then 1 else 0] ++
        (le4 r ++ P.flatMap le4)))) := by
  simp [saveIndexToSD, List.append_assoc]

lemma map_getD_range (P : List Nat) :
    (List.range P.length).map (fun j => P.getD j 0) = P := by
  apply List.ext_getElem
  · simp
  · intro i h1 h2
    simp only [List.getElem_map, List.getElem_range]
    exact List.getD_eq_getElem _ _ h2

/-- Claim C10 (index save/load round-trip): a record written by
`saveIndexToSD` for offsets `P`, file size `S`, completeness `c` and resume
page `r` (all fields within 32 bits), loaded back while the live file still
has size `S`, yields exactly `P`, `S`, `c`, `r` with no deletion. -/
theorem c10_save_load_roundtrip (P : List Nat) (S : Nat) (c : Bool) (r : Nat)
    (hP : ∀ p ∈ P, p < 4294967296) (hS : S < 4294967296)
    (hr : r < 4294967296) (hN : P.length < 4294967296) :
    loadIndexFromSD (saveIndexToSD P S c r) (some S) =
      ⟨true, ⟨P, S, c, r⟩, false⟩ := by
  have hV : (saveIndexToSD P S c r).getD 0 0 = 2 := by
    rw [saveIndexToSD_eq]
    rfl
  have hFS : read4 (saveIndexToSD P S c r) 1 = S := by
    rw [saveIndexToSD_eq]
    rw [read4_shift [2] _ 0 1
      (by simp only [List.length_cons, List.length_nil])]
    exact read4_le4_append S _ hS
  have hPC : read4 (saveIndexToSD P S c r) 5 = P.length := by
    rw [saveIndexToSD_eq]
    rw [read4_shift [2] _ 4 5
      (by simp only [List.length_cons, List.length_nil])]
    rw [read4_shift (le4 S) _ 0 4
      (by simp only [le4, List.length_cons, List.length_nil])]
    exact read4_le4_append P.length _ hN
  have hFlag : (saveIndexToSD P S c r).getD 9 0 = (if c then 1 else 0) := by
    rw [saveIndexToSD_eq]
    rw [getD_shift [2] _ 8 9
      (by simp only [List.length_cons, List.length_nil])]
    rw [getD_shift (le4 S) _ 4 8
      (by simp only [le4, List.length_cons, List.length_nil])]
    rw [getD_shift (le4 P.length) _ 0 4
      (by simp only [le4, List.length_cons, List.length_nil])]
    rfl
  have hR : read4 (saveIndexToSD P S c r) 10 = r := by
    rw [saveIndexToSD_eq]
    rw [read4_shift [2] _ 9 10
      (by simp only [List.length_cons, List.length_nil])]
    rw [read4_shift (le4 S) _ 5 9
      (by simp only [le4, List.length_cons, List.length_nil])]
    rw [read4_shift (le4 P.length) _ 1 5
      (by simp only [le4, List.length_cons, List.length_nil])]
    rw [read4_shift [if c then 1 else 0] _ 0 1
      (by simp only [List.length_cons, List.length_nil])]
    exact read4_le4_append r _ hr
  have hOff : ∀ j, j < P.length →
      read4 (saveIndexToSD P S c r) (14 + 4 * j) = P.getD j 0 := by
    intro j hj
    rw [saveIndexToSD_eq]
    rw [read4_shift [2] _ (13 + 4 * j) (14 + 4 * j)
      (by simp only [List.length_cons, List.length_nil]; omega)]
    rw [read4_shift (le4 S) _ (9 + 4 * j) (13 + 4 * j)
      (by simp only [le4, List.length_cons, List.length_nil]; omega)]
    rw [read4_shift (le4 P.length) _ (5 + 4 * j) (9 + 4 * j)
      (by simp only [le4, List.length_cons, List.length_nil]; omega)]
    rw [read4_shift [if c then 1 else 0] _ (4 + 4 * j) (5 + 4 * j)
      (by simp only [List.length_cons, List.length_nil]; omega)]
    rw [read4_shift (le4 r) _ (4 * j) (4 + 4 * j)
      (by simp only [le4, List.length_cons, List.length_nil])]
    exact read4_flatMap_le4 P j hP hj
  have hmap : (List.range P.length).map
      (fun j => read4 (saveIndexToSD P S c r) (14 + 4 * j)) = P := by
    have hcongr : (List.range P.length).map
        (fun j => read4 (saveIndexToSD P S c r) (14 + 4 * j)) =
        (List.range P.length).map (fun j => P.getD j 0) := by
      refine List.map_congr_left ?_
      intro j hjr
      exact hOff j (List.mem_range.mp hjr)
    rw [hcongr, map_getD_range]
  simp only [loadIndexFromSD, storedFileSize, hV, hFS, hPC, hFlag, hR,
    eq_self_iff_true, if_true]
  rw [hmap]
  cases c <;> rfl

theorem c10_save_load_roundtrip_witness :
    (∀ p ∈ ([0, 40] : List Nat), p < 4294967296) ∧ (80 : Nat) < 4294967296 ∧
    (1 : Nat) < 4294967296 ∧ ([0, 40] : List Nat).length < 4294967296 ∧
    loadIndexFromSD (saveIndexToSD [0, 40] 80 true 1) (some 80) =
      ⟨true, ⟨[0, 40], 80, true, 1⟩, false⟩ :=
  ⟨by decide, by decide, by decide, by decide,
    c10_save_load_roundtrip [0, 40] 80 true 1 (by decide) (by decide)
      (by decide) (by decide)⟩

/-- Claim C8 (resume-cursor update frame property): on a version-2 record of
at least header size, `saveReadingPosition` produces exactly the old record
with only the 4 bytes at offset `1+4+4+1 = 10` replaced by the new resume
cursor: the length is unchanged, the first 10 bytes (version, fileSize,
pageCount, complete flag) are unchanged, every byte from offset 14 on (the
stored page offsets) is unchanged, and the resume-cursor field now reads
`page`; on a record whose version byte is not the current one it instead
performs a full `saveIndexToSD` rewrite from the catalog entry. -/
theorem c8_resume_cursor_frame (idx idx' : List Nat) (page : Nat)
    (entry : Option FileCache) (fc' : FileCache)
    (hv : idx.getD 0 0 = 2) (hlen : 14 ≤ idx.length)
    (hp : page < 4294967296) (hv' : idx'.getD 0 0 ≠ 2) :
    saveReadingPosition idx page entry =
      some (idx.take 10 ++ le4 page ++ idx.drop 14) ∧
    (idx.take 10 ++ le4 page ++ idx.drop 14).length = idx.length ∧
    (idx.take 10 ++ le4 page ++ idx.drop 14).take 10 = idx.take 10 ∧
    (idx.take 10 ++ le4 page ++ idx.drop 14).drop 14 = idx.drop 14 ∧
    read4 (idx.take 10 ++ le4 page ++ idx.drop 14) 10 = page ∧
    saveReadingPosition idx' page (some fc') =
      some (saveIndexToSD fc'.pagePositions fc'.fileSize fc'.fullyIndexed
        page) := by
  have h10 : (idx.take 10).length = 10 := by
    rw [List.length_take]
    omega
  refine ⟨?_, ?_, ?_, ?_, ?_, ?_⟩
  · simp only [saveReadingPosition]
    rw [if_pos hv]
  · simp only [List.length_append, List.length_take, List.length_drop, le4,
      List.length_cons, List.length_nil]
    omega
  · rw [List.append_assoc]
    exact List.take_left' h10
  · have h14 : (idx.take 10 ++ le4 page).length = 14 := by
      simp only [List.length_append, h10, le4, List.length_cons,
        List.length_nil]
    exact List.drop_left' h14
  · rw [List.append_assoc]
    rw [read4_shift (idx.take 10) _ 0 10 (by rw [h10])]
    exact read4_le4_append page _ hp
  · simp only [saveReadingPosition]
    rw [if_neg hv']

/-- A concrete well-formed version-2 record with one stored offset, used as
the claim C8 witness input. -/
def c8record : List Nat := [2] ++ le4 5 ++ le4 1 ++ [1] ++ le4 9 ++ le4 7

theorem c8_resume_cursor_frame_witness :
    c8record.getD 0 0 = 2 ∧ 14 ≤ c8record.length ∧
    (3 : Nat) < 4294967296 ∧ ([] : List Nat).getD 0 0 ≠ 2 ∧
    (saveReadingPosition c8record 3 none =
        some (c8record.take 10 ++ le4 3 ++ c8record.drop 14) ∧
      (c8record.take 10 ++ le4 3 ++ c8record.drop 14).length =
        c8record.length ∧
      (c8record.take 10 ++ le4 3 ++ c8record.drop 14).take 10 =
        c8record.take 10 ∧
      (c8record.take 10 ++ le4 3 ++ c8record.drop 14).drop 14 =
        c8record.drop 14 ∧
      read4 (c8record.take 10 ++ le4 3 ++ c8record.drop 14) 10 = 3 ∧
      saveReadingPosition [] 3 (some ⟨[0], 5, true, 0⟩) =
        some (saveIndexToSD [0] 5 true 3)) :=
  ⟨by decide, by decide, by decide, by decide,
    c8_resume_cursor_frame c8record [] 3 none ⟨[0], 5, true, 0⟩ (by decide)
      (by decide) (by decide) (by decide)⟩
